import Mathlib

/-!
# Verification of the TWI/I2C driver and bus scanner

Shallow embedding of `lib/twi/twi.c`: the Bus Driver primitives
(`twi_start`, `twi_write`, `twi_read`, `twi_stop`) and the Scanner
(`twi_scan`).  Machine bytes are `Nat` with `% 256` where overflow could
matter; the busy-wait loops are modelled with explicit fuel over a stream
of TWINT-flag values, so that a primitive returns `none` exactly when the
fuel runs out before the hardware asserts completion.
-/

set_option maxRecDepth 100000

namespace Twi

/-- TWCR bit positions of the ATmega328P peripheral (from the device
header, not part of this repository; the exact values are immaterial to
the properties proved below). -/
def TWINT : Nat := 7

/-- TWEA bit position in TWCR. -/
def TWEA : Nat := 6

/-- TWSTA bit position in TWCR. -/
def TWSTA : Nat := 5

/-- TWSTO bit position in TWCR. -/
def TWSTO : Nat := 4

/-- TWEN bit position in TWCR. -/
def TWEN : Nat := 2

/-- Modelled from the spec: the constant `TWI_WRITE` comes from
`lib/twi/twi.h`, which is not among the repository files available here.
The spec describes the probe byte as "`(a << 1) | WRITE_DIRECTION_BIT`
— shifts the 7-bit address left one bit and sets the low bit to indicate
a write-direction probe", so the direction bit is modelled as the value
that sets the low bit. -/
def TWI_WRITE : Nat := 1

/-- Modelled from the spec: `TWI_ACK` from `lib/twi/twi.h` (not in the
available files); `read(ackPolicy)` asserts acknowledge when the policy
requests it.  Its value only selects the TWEA branch in `twi_read`. -/
def TWI_ACK : Nat := 1

/-- The hardware as the driver observes it during one primitive call:
the successive values of the TWINT completion flag at each poll of the
busy-wait loop, and the status/data registers once the operation has
completed. -/
structure Hw where
  twint : Nat → Bool
  twsr : Nat
  twdr : Nat

/-- `while ((TWCR & (1<<TWINT)) == 0);` — poll the completion flag from
time `t` on, with explicit fuel; returns the poll index at which the
flag was seen set. -/
def waitTWINT (flag : Nat → Bool) : Nat → Nat → Option Nat
  | 0, _ => none
  | fuel + 1, t => if flag t then some t else waitTWINT flag fuel (t + 1)

/-- TWCR value written by `twi_start`: `(1<<TWINT) | (1<<TWSTA) | (1<<TWEN)`. -/
def twcrStart : Nat := (1 <<< TWINT) ||| (1 <<< TWSTA) ||| (1 <<< TWEN)

/-- TWCR value written by `twi_write` (and `twi_read` with NACK):
`(1<<TWINT) | (1<<TWEN)`. -/
def twcrGo : Nat := (1 <<< TWINT) ||| (1 <<< TWEN)

/-- TWCR value written by `twi_read` with ACK:
`(1<<TWINT) | (1<<TWEN) | (1<<TWEA)`. -/
def twcrGoAck : Nat := (1 <<< TWINT) ||| (1 <<< TWEN) ||| (1 <<< TWEA)

/-- TWCR value written by `twi_stop`: `(1<<TWINT) | (1<<TWSTO) | (1<<TWEN)`. -/
def twcrStop : Nat := (1 <<< TWINT) ||| (1 <<< TWSTO) ||| (1 <<< TWEN)

/-- `twi_start()`: assert the start condition, then busy-wait on TWINT.
Returns `some ()` when the flag was asserted within `fuel` polls. -/
def twi_start (hw : Hw) (fuel : Nat) : Option Unit :=
  (waitTWINT hw.twint fuel 0).map fun _ => ()

/-- The status classification at the end of `twi_write`:
`twi_status = TWSR & 0xf8`, then
`0` (ACK) iff `twi_status` is `0x18`, `0x28` or `0x40`, else `1` (NACK). -/
def twiAck (twsr : Nat) : Nat :=
  if twsr &&& 0xf8 = 0x18 ∨ twsr &&& 0xf8 = 0x28 ∨ twsr &&& 0xf8 = 0x40
  then 0 else 1

/-- `twi_write(data)`: place `data` in TWDR, trigger transmission,
busy-wait on TWINT, then classify `TWSR & 0xf8` into ACK (0) / NACK (1). -/
def twi_write (hw : Hw) (data : Nat) (fuel : Nat) : Option Nat :=
  (waitTWINT hw.twint fuel 0).map fun _ => twiAck hw.twsr

/-- `twi_read(ack)`: select the TWEA branch from the ack policy, trigger
reception, busy-wait on TWINT, return the received TWDR byte. -/
def twi_read (hw : Hw) (ack : Nat) (fuel : Nat) : Option Nat :=
  let _twcr : Nat := if ack = TWI_ACK then twcrGoAck else twcrGo
  (waitTWINT hw.twint fuel 0).map fun _ => hw.twdr % 256

/-- `twi_stop()`: one write of the stop value to TWCR and return — no
busy-wait, so the result is produced for every hardware behaviour and
any fuel (including zero).  Returns the TWCR value written. -/
def twi_stop (_hw : Hw) (_fuel : Nat) : Option Nat :=
  some twcrStop

/-! ## The Scanner -/

/-- `"\r\n"`, the line break `uart_puts` receives before each detected
address. -/
def crlf : String := "\r\n"

/-- One digit as `itoa` (avr-libc) renders it: `0`–`9` then lowercase
`a`–`f`. -/
def hexDigitChar (d : Nat) : Char :=
  if d < 10 then Char.ofNat (48 + d) else Char.ofNat (87 + d)

/-- Little-endian base-16 digit list of `n`, with structural fuel
(`n` itself suffices as fuel). -/
def hexDigitsAux : Nat → Nat → List Nat
  | 0, _ => []
  | _ + 1, 0 => []
  | fuel + 1, n + 1 => ((n + 1) % 16) :: hexDigitsAux fuel ((n + 1) / 16)

/-- `itoa(n, string, 16)` as avr-libc computes the characters: minimal
length, lowercase, most significant digit first, `"0"` for zero.  The
terminating NUL that `itoa` also stores is accounted separately in
`itoaBytesStored`. -/
def itoa16 (n : Nat) : String :=
  if n = 0 then "0"
  else String.mk ((hexDigitsAux n n).reverse.map hexDigitChar)

/-- Number of bytes `itoa(n, buf, 16)` stores into its buffer: the
digit characters plus the terminating NUL. -/
def itoaBytesStored (n : Nat) : Nat := (itoa16 n).length + 1

/-- `char string[2];` — the size of the Scanner's conversion buffer. -/
def stringBufLen : Nat := 2

/-- Value of a lowercase hexadecimal digit character. -/
def hexVal (c : Char) : Nat :=
  if 97 ≤ c.toNat then c.toNat - 87 else c.toNat - 48

/-- Read a hexadecimal digit string back as a number (the inverse used
to state that formatting applies no transformation beyond base-16
rendering). -/
def parseHex (s : String) : Nat :=
  s.data.foldl (fun acc c => 16 * acc + hexVal c) 0

/-- The spec's words, for comparison: the two-character (zero-padded)
hexadecimal encoding of a byte. -/
def twoCharHex (n : Nat) : String :=
  String.mk [hexDigitChar (n / 16 % 16), hexDigitChar (n % 16)]

/-- `(sla<<1) | TWI_WRITE`, as the `uint8_t` argument `twi_write`
receives. -/
def probeByte (sla : Nat) : Nat := ((sla <<< 1) ||| TWI_WRITE) % 256

/-- Observable actions of one Scanner run: the bus primitives it invokes
and the strings it hands to `uart_puts`. -/
inductive ScanEvent where
  | start : ScanEvent
  | write : Nat → ScanEvent
  | stop : ScanEvent
  | emit : String → ScanEvent
deriving DecidableEq, Repr

/-- One iteration of the scan loop at probe time `t` for address `sla`:
`twi_start(); ack = twi_write((sla<<1)|TWI_WRITE); twi_stop();` then,
on ACK, `uart_puts("\r\n"); itoa(sla, string, 16); uart_puts(string);`.
`bus t b` is the masked-status the hardware reports for byte `b` probed
at time `t`. -/
def scanIter (bus : Nat → Nat → Nat) (t sla : Nat) : List ScanEvent :=
  [ScanEvent.start, ScanEvent.write (probeByte sla), ScanEvent.stop] ++
    (if twiAck (bus t (probeByte sla)) = 0
     then [ScanEvent.emit crlf, ScanEvent.emit (itoa16 sla)]
     else [])

/-- The scan loop from address `sla`, `k` iterations remaining, next
probe at time `t`. -/
def scanFrom (bus : Nat → Nat → Nat) : Nat → Nat → Nat → List ScanEvent
  | _, _, 0 => []
  | t, sla, k + 1 => scanIter bus t sla ++ scanFrom bus (t + 1) (sla + 1) k

/-- `twi_scan()`: `for (uint8_t sla = 8; sla < 120; sla++) { ... }` —
112 iterations starting at address 8, first probe at time `t0`. -/
def twi_scan (bus : Nat → Nat → Nat) (t0 : Nat) : List ScanEvent :=
  scanFrom bus t0 8 112

/-- The strings a trace hands to the byte-sink, in order. -/
def emits : List ScanEvent → List String
  | [] => []
  | ScanEvent.emit s :: es => s :: emits es
  | ScanEvent.start :: es => emits es
  | ScanEvent.write _ :: es => emits es
  | ScanEvent.stop :: es => emits es

/-- The bytes a trace passes to `twi_write`, in order. -/
def writesOf : List ScanEvent → List Nat
  | [] => []
  | ScanEvent.write b :: es => b :: writesOf es
  | ScanEvent.emit _ :: es => writesOf es
  | ScanEvent.start :: es => writesOf es
  | ScanEvent.stop :: es => writesOf es

/-- The addresses acknowledged during the scan loop from `sla`, `k`
iterations remaining, next probe at time `t`, in probe order. -/
def ackedFrom (bus : Nat → Nat → Nat) : Nat → Nat → Nat → List Nat
  | _, _, 0 => []
  | t, sla, k + 1 =>
    (if twiAck (bus t (probeByte sla)) = 0 then [sla] else []) ++
      ackedFrom bus (t + 1) (sla + 1) k

/-- The addresses a full scan starting at time `t0` acknowledges, in
probe order. -/
def ackedAddrs (bus : Nat → Nat → Nat) (t0 : Nat) : List Nat :=
  ackedFrom bus t0 8 112

/-! ## Concrete bus behaviours used by witnesses and counterexamples -/

/-- A bus on which no device ever answers: every probe reports status
`0x20` (SLA+W transmitted, NACK). -/
def busNone : Nat → Nat → Nat := fun _ _ => 0x20

/-- A bus on which only address 8 answers (its probe byte is 17). -/
def busOnly8 : Nat → Nat → Nat := fun _ b => if b = 17 then 0x18 else 0x20

/-- A bus on which only address 16 answers (its probe byte is 33). -/
def busOnly16 : Nat → Nat → Nat := fun _ b => if b = 33 then 0x18 else 0x20

/-- A bus on which addresses 0x57 and 0x68 answer, at every time. -/
def busTwo : Nat → Nat → Nat :=
  fun _ b => if b = probeByte 0x57 ∨ b = probeByte 0x68 then 0x18 else 0x20

/-- Hardware whose completion flag is always set and whose status byte
is `0x18` (SLA+W, ACK). -/
def hwAck : Hw := ⟨fun _ => true, 0x18, 0⟩

/-! ## Helper lemmas -/

theorem emits_append (l₁ l₂ : List ScanEvent) :
    emits (l₁ ++ l₂) = emits l₁ ++ emits l₂ := by
  induction l₁ with
  | nil => rfl
  | cons e es ih => cases e <;> simp [emits, ih]

theorem writesOf_append (l₁ l₂ : List ScanEvent) :
    writesOf (l₁ ++ l₂) = writesOf l₁ ++ writesOf l₂ := by
  induction l₁ with
  | nil => rfl
  | cons e es ih => cases e <;> simp [writesOf, ih]

theorem writesOf_scanIter (bus : Nat → Nat → Nat) (t sla : Nat) :
    writesOf (scanIter bus t sla) = [probeByte sla] := by
  unfold scanIter
  split <;> rfl

theorem emits_scanIter (bus : Nat → Nat → Nat) (t sla : Nat) :
    emits (scanIter bus t sla) =
      if twiAck (bus t (probeByte sla)) = 0 then [crlf, itoa16 sla] else [] := by
  unfold scanIter
  split <;> rfl

theorem mem_scanIter (bus : Nat → Nat → Nat) (t sla : Nat) (e : ScanEvent) :
    e ∈ scanIter bus t sla ↔
      e = ScanEvent.start ∨ e = ScanEvent.write (probeByte sla) ∨
        e = ScanEvent.stop ∨
        (twiAck (bus t (probeByte sla)) = 0 ∧
          (e = ScanEvent.emit crlf ∨ e = ScanEvent.emit (itoa16 sla))) := by
  unfold scanIter
  split <;> rename_i h <;> simp [h]

theorem writesOf_scanFrom (bus : Nat → Nat → Nat) :
    ∀ (k t sla : Nat),
      writesOf (scanFrom bus t sla k) = (List.range' sla k).map probeByte := by
  intro k
  induction k with
  | zero => intro t sla; rfl
  | succ k ih =>
    intro t sla
    rw [scanFrom, writesOf_append, writesOf_scanIter, ih, List.range'_succ]
    rfl

theorem emits_scanFrom (bus : Nat → Nat → Nat) :
    ∀ (k t sla : Nat),
      emits (scanFrom bus t sla k) =
        (ackedFrom bus t sla k).flatMap (fun a => [crlf, itoa16 a]) := by
  intro k
  induction k with
  | zero => intro t sla; rfl
  | succ k ih =>
    intro t sla
    rw [scanFrom, emits_append, emits_scanIter, ih, ackedFrom]
    split <;> simp

theorem ackedFrom_sublist (bus : Nat → Nat → Nat) :
    ∀ (k t sla : Nat), List.Sublist (ackedFrom bus t sla k) (List.range' sla k) := by
  intro k
  induction k with
  | zero => intro t sla; exact List.Sublist.refl _
  | succ k ih =>
    intro t sla
    rw [ackedFrom, List.range'_succ]
    split
    · exact List.Sublist.cons₂ sla (ih (t + 1) (sla + 1))
    · exact List.Sublist.cons sla (ih (t + 1) (sla + 1))

theorem mem_ackedFrom (bus : Nat → Nat → Nat) :
    ∀ (k t sla a : Nat),
      a ∈ ackedFrom bus t sla k ↔
        sla ≤ a ∧ a < sla + k ∧
          twiAck (bus (t + (a - sla)) (probeByte a)) = 0 := by
  intro k
  induction k with
  | zero => intro t sla a; simp [ackedFrom]; omega
  | succ k ih =>
    intro t sla a
    rw [ackedFrom]
    constructor
    · intro h
      rcases List.mem_append.mp h with h₁ | h₂
      · have ha : a = sla := by
          by_cases hk : twiAck (bus t (probeByte sla)) = 0
          · simpa [hk] using h₁
          · simp [hk] at h₁
        subst ha
        have hk : twiAck (bus t (probeByte a)) = 0 := by
          by_cases hk : twiAck (bus t (probeByte a)) = 0
          · exact hk
          · simp [hk] at h₁
        refine ⟨Nat.le_refl a, by omega, ?_⟩
        simpa using hk
      · have := (ih (t + 1) (sla + 1) a).mp h₂
        refine ⟨by omega, by omega, ?_⟩
        have harith : t + 1 + (a - (sla + 1)) = t + (a - sla) := by omega
        rw [harith] at this
        exact this.2.2
    · rintro ⟨h₁, h₂, h₃⟩
      rcases Nat.eq_or_lt_of_le h₁ with he | hl
      · subst he
        simp only [Nat.sub_self, Nat.add_zero] at h₃
        simp [h₃]
      · refine List.mem_append.mpr (Or.inr ?_)
        refine (ih (t + 1) (sla + 1) a).mpr ⟨by omega, by omega, ?_⟩
        have harith : t + 1 + (a - (sla + 1)) = t + (a - sla) := by omega
        rw [harith]
        exact h₃

theorem mem_emit_scanFrom (bus : Nat → Nat → Nat) :
    ∀ (k t sla : Nat) (s : String),
      ScanEvent.emit s ∈ scanFrom bus t sla k ↔
        ∃ i, i < k ∧ twiAck (bus (t + i) (probeByte (sla + i))) = 0 ∧
          (s = crlf ∨ s = itoa16 (sla + i)) := by
  intro k
  induction k with
  | zero => intro t sla s; simp [scanFrom]
  | succ k ih =>
    intro t sla s
    rw [scanFrom, List.mem_append, mem_scanIter, ih]
    constructor
    · intro h
      rcases h with h | h
      · rcases h with h | h | h | ⟨hk, h⟩
        · exact absurd h (by simp)
        · exact absurd h (by simp)
        · exact absurd h (by simp)
        · refine ⟨0, Nat.succ_pos k, by simpa using hk, ?_⟩
          rcases h with h | h
          · left; injection h
          · right; simpa using congrArg (fun e => match e with
              | ScanEvent.emit s => s
              | _ => "") h
      · rcases h with ⟨i, hi, hk, hs⟩
        refine ⟨i + 1, by omega, ?_, ?_⟩
        · have : t + 1 + i = t + (i + 1) := by omega
          rw [this] at hk
          have : sla + 1 + i = sla + (i + 1) := by omega
          rw [this] at hk
          exact hk
        · have : sla + 1 + i = sla + (i + 1) := by omega
          rw [this] at hs
          exact hs
    · rintro ⟨i, hi, hk, hs⟩
      cases i with
      | zero =>
        left
        refine Or.inr (Or.inr (Or.inr ⟨by simpa using hk, ?_⟩))
        rcases hs with hs | hs
        · left; rw [hs]
        · right; rw [hs]; simp
      | succ i =>
        right
        refine ⟨i, by omega, ?_, ?_⟩
        · have : t + 1 + i = t + (i + 1) := by omega
          rw [this]
          have : sla + 1 + i = sla + (i + 1) := by omega
          rw [this]
          exact hk
        · have : sla + 1 + i = sla + (i + 1) := by omega
          rw [this]
          exact hs

/-- `itoa` applies no transformation beyond base-16 rendering: parsing
the digits back yields the address, for every value the scan can pass. -/
theorem itoa16_parse : ∀ a, a < 120 → parseHex (itoa16 a) = a := by decide

/-- The rendered length over the scanned range: one character below 16,
two characters from 16 on. -/
theorem itoa16_length : ∀ a, a < 120 → (itoa16 a).length = if a < 16 then 1 else 2 := by decide

/-- No rendered address collides with the line break. -/
theorem itoa16_ne_crlf : ∀ a, a < 120 → itoa16 a ≠ crlf := by decide

/-- On 7-bit addresses the probe byte is `2a + 1` (no wrap-around). -/
theorem probeByte_small : ∀ a, a < 128 → probeByte a = 2 * a + 1 := by decide

/-- The ACK classification, phrased on the top five bits of the status
byte: `0x18 >>> 3 = 3`, `0x28 >>> 3 = 5`, `0x40 >>> 3 = 8`. -/
theorem twiAck_zero_iff :
    ∀ s, s < 256 → (twiAck s = 0 ↔ (s >>> 3 = 3 ∨ s >>> 3 = 5 ∨ s >>> 3 = 8)) := by decide

/-- The classification is binary. -/
theorem twiAck_cases : ∀ s, twiAck s = 0 ∨ twiAck s = 1 := by
  intro s
  unfold twiAck
  split <;> simp

/-- Rendered addresses are injective over the scanned range. -/
theorem itoa16_inj (a b : Nat) (ha : a < 120) (hb : b < 120)
    (h : itoa16 a = itoa16 b) : a = b := by
  have h₁ := itoa16_parse a ha
  have h₂ := itoa16_parse b hb
  rw [h, h₂] at h₁
  exact h₁.symm

theorem waitTWINT_flag {flag : Nat → Bool} :
    ∀ (fuel t r : Nat), waitTWINT flag fuel t = some r → flag r = true := by
  intro fuel
  induction fuel with
  | zero => intro t r h; exact absurd h (by simp [waitTWINT])
  | succ fuel ih =>
    intro t r h
    rw [waitTWINT] at h
    by_cases hf : flag t
    · simp [hf] at h
      rw [← h]
      exact hf
    · simp [hf] at h
      exact ih (t + 1) r h

theorem waitTWINT_reaches {flag : Nat → Bool} :
    ∀ (fuel t n : Nat), t ≤ n → n < t + fuel → flag n = true →
      (waitTWINT flag fuel t).isSome = true := by
  intro fuel
  induction fuel with
  | zero => intro t n h₁ h₂ _; omega
  | succ fuel ih =>
    intro t n h₁ h₂ h₃
    rw [waitTWINT]
    by_cases hf : flag t
    · simp [hf]
    · have hne : t ≠ n := fun he => hf (he ▸ h₃)
      rw [if_neg hf]
      exact ih (t + 1) n (by omega) (by omega) h₃

theorem waitTWINT_none {flag : Nat → Bool} (h : ∀ n, flag n = false) :
    ∀ (fuel t : Nat), waitTWINT flag fuel t = none := by
  intro fuel
  induction fuel with
  | zero => intro t; rfl
  | succ fuel ih =>
    intro t
    rw [waitTWINT]
    simp [h t]
    exact ih (t + 1)

theorem scanFrom_time_inv (bus : Nat → Nat → Nat)
    (hbus : ∀ t t' b, bus t b = bus t' b) :
    ∀ (k t₀ t₁ sla : Nat), scanFrom bus t₀ sla k = scanFrom bus t₁ sla k := by
  intro k
  induction k with
  | zero => intro t₀ t₁ sla; rfl
  | succ k ih =>
    intro t₀ t₁ sla
    rw [scanFrom, scanFrom]
    rw [show scanIter bus t₀ sla = scanIter bus t₁ sla by
      unfold scanIter; rw [hbus t₀ t₁ (probeByte sla)]]
    rw [ih (t₀ + 1) (t₁ + 1) (sla + 1)]

theorem count_start_scanIter (bus : Nat → Nat → Nat) (t sla : Nat) :
    List.count ScanEvent.start (scanIter bus t sla) = 1 := by
  unfold scanIter
  split <;> rfl

theorem count_stop_scanIter (bus : Nat → Nat → Nat) (t sla : Nat) :
    List.count ScanEvent.stop (scanIter bus t sla) = 1 := by
  unfold scanIter
  split <;> rfl

theorem count_start_scanFrom (bus : Nat → Nat → Nat) :
    ∀ (k t sla : Nat), List.count ScanEvent.start (scanFrom bus t sla k) = k := by
  intro k
  induction k with
  | zero => intro t sla; rfl
  | succ k ih =>
    intro t sla
    rw [scanFrom, List.count_append, count_start_scanIter, ih]
    omega

theorem count_stop_scanFrom (bus : Nat → Nat → Nat) :
    ∀ (k t sla : Nat), List.count ScanEvent.stop (scanFrom bus t sla k) = k := by
  intro k
  induction k with
  | zero => intro t sla; rfl
  | succ k ih =>
    intro t sla
    rw [scanFrom, List.count_append, count_stop_scanIter, ih]
    omega

/-! ## The claims -/

/-- C3: for every byte passed to `twi_write`, the call reports
"acknowledged" (returns 0) exactly when the status byte restricted to its
top five bits equals one of the three hardware ACK codes
(`0x18 >>> 3 = 3`: SLA+W with ACK, `0x28 >>> 3 = 5`: data with ACK,
`0x40 >>> 3 = 8`: SLA+R with ACK), and "not acknowledged" (returns 1)
for every other status code as a catch-all. -/
theorem twi_write_ack_classification :
    ∀ (hw : Hw) (data fuel r : Nat), hw.twsr < 256 →
      twi_write hw data fuel = some r →
      ((r = 0 ↔ (hw.twsr >>> 3 = 3 ∨ hw.twsr >>> 3 = 5 ∨ hw.twsr >>> 3 = 8)) ∧
        (r = 0 ∨ r = 1)) := by
  intro hw data fuel r hlt h
  unfold twi_write at h
  cases hwait : waitTWINT hw.twint fuel 0 with
  | none => rw [hwait] at h; exact absurd h (by simp)
  | some n =>
    rw [hwait] at h
    simp only [Option.map_some'] at h
    have hr : r = twiAck hw.twsr := by
      injection h with h'
      exact h'.symm
    subst hr
    exact ⟨twiAck_zero_iff hw.twsr hlt, twiAck_cases hw.twsr⟩

/-- Witness for C3 at status `0x18` with the completion flag set. -/
theorem twi_write_ack_classification_witness :
    ((0 : Nat) = 0 ↔ ((0x18 : Nat) >>> 3 = 3 ∨ (0x18 : Nat) >>> 3 = 5 ∨ (0x18 : Nat) >>> 3 = 8)) ∧
      ((0 : Nat) = 0 ∨ (0 : Nat) = 1) :=
  twi_write_ack_classification hwAck 0 1 0 (by decide) (by decide)

/-- C4: the Scanner probes a 7-bit address `a` if and only if `a` lies
in the inclusive range [8, 119]; in particular no address outside that
range (7 and 120 included) is ever probed, on any bus behaviour. -/
theorem scan_probes_range_iff :
    ∀ (bus : Nat → Nat → Nat) (t0 a : Nat), a < 128 →
      (probeByte a ∈ writesOf (twi_scan bus t0) ↔ (8 ≤ a ∧ a < 120)) := by
  intro bus t0 a ha
  rw [twi_scan, writesOf_scanFrom]
  constructor
  · intro h
    obtain ⟨b, hb, he⟩ := List.mem_map.mp h
    have hb' := List.mem_range'_1.mp hb
    have hba : b = a := by
      have h₁ := probeByte_small a ha
      have h₂ := probeByte_small b (by omega)
      rw [h₁, h₂] at he
      omega
    omega
  · intro h
    exact List.mem_map.mpr ⟨a, List.mem_range'_1.mpr (by omega), rfl⟩

/-- Witness for C4 at address 0x68 on an all-NACK bus. -/
theorem scan_probes_range_iff_witness :
    probeByte 104 ∈ writesOf (twi_scan busNone 0) ↔ (8 ≤ 104 ∧ 104 < 120) :=
  scan_probes_range_iff busNone 0 104 (by decide)

/-- C5: the byte the Scanner passes to `twi_write` for candidate address
`a` is `a` shifted left one bit with the low (direction) bit set:
`2a + 1`, whose low bit is 1 and whose upper bits recover `a`. -/
theorem probe_byte_form :
    ∀ a : Nat, a < 128 →
      probeByte a = 2 * a + 1 ∧ Nat.testBit (probeByte a) 0 = true ∧
        probeByte a >>> 1 = a := by decide

/-- Witness for C5 at address 0x3c. -/
theorem probe_byte_form_witness :
    probeByte 60 = 2 * 60 + 1 ∧ Nat.testBit (probeByte 60) 0 = true ∧
      probeByte 60 >>> 1 = 60 :=
  probe_byte_form 60 (by decide)

/-- C1 (amended): for every acknowledged address the Scanner emits
exactly one line — the line break followed by the minimal-length
lowercase hexadecimal rendering of the address (one character for
addresses 8–15, two characters for 16–119) — and applies no other
transformation: parsing the digits back yields the address. -/
theorem scan_output_lines (bus : Nat → Nat → Nat) (t0 : Nat) :
    emits (twi_scan bus t0) =
      (ackedAddrs bus t0).flatMap (fun a => [crlf, itoa16 a]) ∧
    ∀ a ∈ ackedAddrs bus t0,
      8 ≤ a ∧ a < 120 ∧
      List.count a (ackedAddrs bus t0) = 1 ∧
      parseHex (itoa16 a) = a ∧
      (itoa16 a).length = (if a < 16 then 1 else 2) := by
  constructor
  · rw [twi_scan, emits_scanFrom]
    rfl
  · intro a ha
    have hsub := ackedFrom_sublist bus 112 t0 8
    have hmem : a ∈ List.range' 8 112 := hsub.subset ha
    have hb := List.mem_range'_1.mp hmem
    have hnodup : (ackedAddrs bus t0).Nodup :=
      (List.nodup_range' 8 112).sublist hsub
    refine ⟨by omega, by omega, List.count_eq_one_of_mem hnodup ha, ?_, ?_⟩
    · exact itoa16_parse a (by omega)
    · exact itoa16_length a (by omega)

/-- Counterexample to C1 as stated: on a bus acknowledging only address
8, the Scanner emits the one-character string "8", not the two-character
hexadecimal encoding "08". -/
theorem scan_two_char_cex :
    emits (twi_scan busOnly8 0) = [crlf, itoa16 8] ∧
    itoa16 8 = "8" ∧ twoCharHex 8 = "08" ∧
    itoa16 8 ≠ twoCharHex 8 ∧ (itoa16 8).length = 1 := by decide

/-- C2: on a bus acknowledging address 16, the Scanner reaches the
`itoa` call for 16, and that call stores two hex digits plus the
terminating NUL — 3 bytes — into the 2-element buffer `char string[2]`:
the store does not lie within bounds. -/
theorem itoa_overflows_string_buffer :
    16 ∈ ackedAddrs busOnly16 0 ∧
    ScanEvent.emit (itoa16 16) ∈ twi_scan busOnly16 0 ∧
    itoaBytesStored 16 = 3 ∧ stringBufLen = 2 ∧
    ¬ itoaBytesStored 16 ≤ stringBufLen := by decide

/-- C6: if `twi_write` reports "not acknowledged" for the probe of an
address in [8, 119], the Scanner emits no output for that address — its
rendered string never reaches the byte-sink, the address is not among
the acknowledged ones, and its loop iteration is exactly the silent
start/write/stop triple. -/
theorem nack_no_output (bus : Nat → Nat → Nat) (t0 a : Nat)
    (h₈ : 8 ≤ a) (h₁₂₀ : a < 120)
    (hnack : twiAck (bus (t0 + (a - 8)) (probeByte a)) = 1) :
    ScanEvent.emit (itoa16 a) ∉ twi_scan bus t0 ∧
    a ∉ ackedAddrs bus t0 ∧
    scanIter bus (t0 + (a - 8)) a =
      [ScanEvent.start, ScanEvent.write (probeByte a), ScanEvent.stop] := by
  refine ⟨?_, ?_, ?_⟩
  · intro hmem
    rw [twi_scan] at hmem
    obtain ⟨i, hi, hack, hs⟩ := (mem_emit_scanFrom bus 112 t0 8 (itoa16 a)).mp hmem
    rcases hs with hs | hs
    · exact itoa16_ne_crlf a (by omega) hs
    · have : a = 8 + i := itoa16_inj a (8 + i) (by omega) (by omega) hs
      rw [show t0 + i = t0 + (a - 8) by omega, show 8 + i = a by omega] at hack
      rw [hack] at hnack
      exact absurd hnack (by decide)
  · intro hmem
    have := (mem_ackedFrom bus 112 t0 8 a).mp hmem
    rw [this.2.2] at hnack
    exact absurd hnack (by decide)
  · unfold scanIter
    rw [if_neg (by rw [hnack]; decide)]
    rfl

/-- Witness for C6 at address 0x3c on an all-NACK bus. -/
theorem nack_no_output_witness :
    ScanEvent.emit (itoa16 60) ∉ twi_scan busNone 0 ∧
    60 ∉ ackedAddrs busNone 0 ∧
    scanIter busNone (0 + (60 - 8)) 60 =
      [ScanEvent.start, ScanEvent.write (probeByte 60), ScanEvent.stop] :=
  nack_no_output busNone 0 60 (by decide) (by decide) (by decide)

/-- C7: one Scanner run probes the addresses 8..119 exactly once each
(the probed-address list is `range' 8 112`, each address counted once),
issues exactly 112 start and 112 stop conditions, the probes occur in
strictly ascending address order, and so do the acknowledged addresses
whose lines are emitted. -/
theorem scan_probe_order (bus : Nat → Nat → Nat) (t0 : Nat) :
    writesOf (twi_scan bus t0) = (List.range' 8 112).map probeByte ∧
    ((writesOf (twi_scan bus t0)).map fun b => b >>> 1) = List.range' 8 112 ∧
    (∀ a, 8 ≤ a → a < 120 →
      List.count a ((writesOf (twi_scan bus t0)).map fun b => b >>> 1) = 1) ∧
    List.Pairwise (fun a b => a < b)
      ((writesOf (twi_scan bus t0)).map fun b => b >>> 1) ∧
    List.count ScanEvent.start (twi_scan bus t0) = 112 ∧
    List.count ScanEvent.stop (twi_scan bus t0) = 112 ∧
    List.Pairwise (fun a b => a < b) (ackedAddrs bus t0) := by
  have h₁ : writesOf (twi_scan bus t0) = (List.range' 8 112).map probeByte := by
    rw [twi_scan, writesOf_scanFrom]
  have h₂ : ((writesOf (twi_scan bus t0)).map fun b => b >>> 1) = List.range' 8 112 := by
    rw [h₁, List.map_map]
    have hcong : ∀ a ∈ List.range' 8 112, ((fun b => b >>> 1) ∘ probeByte) a = id a := by
      intro a hmem
      have hb := List.mem_range'_1.mp hmem
      have hp := probeByte_small a (by omega)
      simp only [Function.comp, hp, id]
      rw [Nat.shiftRight_one]
      omega
    rw [List.map_congr_left hcong, List.map_id]
  refine ⟨h₁, h₂, ?_, ?_, ?_, ?_, ?_⟩
  · intro a ha₁ ha₂
    rw [h₂]
    exact List.count_eq_one_of_mem (List.nodup_range' 8 112)
      (List.mem_range'_1.mpr (by omega))
  · rw [h₂]
    exact List.pairwise_lt_range' 8 112
  · rw [twi_scan]; exact count_start_scanFrom bus 112 t0 8
  · rw [twi_scan]; exact count_stop_scanFrom bus 112 t0 8
  · exact (List.pairwise_lt_range' 8 112).sublist (ackedFrom_sublist bus 112 t0 8)

/-- C8: with a fixed set of responding devices (the bus answers each
probe byte the same way at every time), two Scanner runs — the second
starting where the first left off — produce identical output. -/
theorem scan_idempotent (bus : Nat → Nat → Nat) (t0 t1 : Nat)
    (hbus : ∀ t t' b, bus t b = bus t' b) :
    emits (twi_scan bus t0) = emits (twi_scan bus t1) := by
  rw [twi_scan, twi_scan, scanFrom_time_inv bus hbus 112 t0 t1 8]

/-- Witness for C8: two consecutive runs over the bus answering at 0x57
and 0x68. -/
theorem scan_idempotent_witness :
    emits (twi_scan busTwo 0) = emits (twi_scan busTwo 112) :=
  scan_idempotent busTwo 0 112 (fun _ _ _ => rfl)

/-- C9: each of `twi_start`, `twi_write` and `twi_read` busy-waits on
the TWINT completion flag with no timeout: some fuel makes the call
return exactly when the hardware eventually asserts the flag, and if the
flag is never asserted no amount of fuel makes any of them return. -/
theorem driver_primitives_busy_wait (hw : Hw) :
    ((∃ n, hw.twint n = true) ↔ (∃ fuel, (twi_start hw fuel).isSome = true)) ∧
    (∀ d, (∃ n, hw.twint n = true) ↔ (∃ fuel, (twi_write hw d fuel).isSome = true)) ∧
    (∀ a, (∃ n, hw.twint n = true) ↔ (∃ fuel, (twi_read hw a fuel).isSome = true)) ∧
    ((∀ n, hw.twint n = false) →
      ∀ fuel d a, twi_start hw fuel = none ∧ twi_write hw d fuel = none ∧
        twi_read hw a fuel = none) := by
  have key : (∃ n, hw.twint n = true) ↔
      (∃ fuel, (waitTWINT hw.twint fuel 0).isSome = true) := by
    constructor
    · rintro ⟨n, hn⟩
      exact ⟨n + 1, waitTWINT_reaches (n + 1) 0 n (Nat.zero_le n) (by omega) hn⟩
    · rintro ⟨fuel, h⟩
      obtain ⟨r, hr⟩ := Option.isSome_iff_exists.mp h
      exact ⟨r, waitTWINT_flag fuel 0 r hr⟩
  refine ⟨?_, ?_, ?_, ?_⟩
  · rw [key]
    constructor
    · rintro ⟨fuel, h⟩
      exact ⟨fuel, by simp [twi_start, h]⟩
    · rintro ⟨fuel, h⟩
      exact ⟨fuel, by simpa [twi_start] using h⟩
  · intro d
    rw [key]
    constructor
    · rintro ⟨fuel, h⟩
      exact ⟨fuel, by simp [twi_write, h]⟩
    · rintro ⟨fuel, h⟩
      exact ⟨fuel, by simpa [twi_write] using h⟩
  · intro a
    rw [key]
    constructor
    · rintro ⟨fuel, h⟩
      exact ⟨fuel, by simp [twi_read, h]⟩
    · rintro ⟨fuel, h⟩
      exact ⟨fuel, by simpa [twi_read] using h⟩
  · intro hnever fuel d a
    have h := waitTWINT_none hnever fuel 0
    exact ⟨by simp [twi_start, h], by simp [twi_write, h], by simp [twi_read, h]⟩

/-- C10: `twi_stop` is non-blocking — it produces the stop-condition
TWCR write and returns for every hardware behaviour and any fuel
(including zero), its result independent of the hardware; the value it
writes has the TWSTO (stop) and TWEN (enable) bits set. -/
theorem twi_stop_nonblocking :
    ∀ (hw : Hw) (fuel : Nat),
      twi_stop hw fuel = some twcrStop ∧
      Nat.testBit twcrStop TWSTO = true ∧
      Nat.testBit twcrStop TWEN = true ∧
      ∀ (hw' : Hw) (fuel' : Nat), twi_stop hw fuel = twi_stop hw' fuel' := by
  intro hw fuel
  exact ⟨rfl, by decide, by decide, fun _ _ => rfl⟩

end Twi
